import Mathlib

/-!
Shallow embedding of the QR-code encoder of this repository
(ZXing-style `Encoder` in `src/unnamed/part_000`, plus the independent
`QRNumeric` segment encoder in `src/src/qrcode/encoder/QRNumeric.ts`),
with theorems settling the frozen claims about it.

Strings are modelled as lists of UTF-16 code units (`List Nat`), bit
buffers as `List Bool` (bit `i` of the buffer is element `i` of the
list), byte arrays as `List Nat` with entries below 256.  Fallible
code returns `Option`.
-/

/-- Modelled from the spec (§4.1 BitStream): `append_bits(value, n)`
writes the low `n` bits of `value`, most significant first.  The
`BitArray` / `BitBuffer` classes themselves are not under `src/`;
every call site in the sources passes a value below `2 ^ n`. -/
def natBits (value n : Nat) : List Bool :=
  (List.range n).map (fun j => value.testBit (n - 1 - j))

/-- Modelled from the spec (§4.1 BitStream): appending bits to the
append-only buffer. -/
def appendBits (bits : List Bool) (value n : Nat) : List Bool :=
  bits ++ natBits value n

/-- Modelled from the spec (§4.1 BitStream): `append_bit`. -/
def appendBit (bits : List Bool) (b : Bool) : List Bool :=
  bits ++ [b]

/-- Modelled from the spec (§4.1 BitStream): `size_in_bytes() = (size + 7) / 8`. -/
def getSizeInBytes (bits : List Bool) : Nat :=
  (bits.length + 7) / 8

/-- Modelled from the spec (§3 Data model): the `Mode` tagged variant. -/
inductive Mode where
  | NUMERIC
  | ALPHANUMERIC
  | BYTE
  | KANJI
  | ECI
deriving DecidableEq

/-- Modelled from the spec (§3 Data model): 4-bit mode indicators
`0001`, `0010`, `0100`, `1000`, `0111`. -/
def Mode.getBits : Mode → Nat
  | .NUMERIC => 0x1
  | .ALPHANUMERIC => 0x2
  | .BYTE => 0x4
  | .KANJI => 0x8
  | .ECI => 0x7

/-- Modelled from the spec (§3 Data model): character-count bit widths
indexed by version range (V1–9, V10–26, V27–40): Numeric `10,12,14`,
Alphanumeric `9,11,13`, Byte `8,16,16`, Kanji `8,10,12`.  The `ECI`
marker carries no character count (width 0). -/
def Mode.getCharacterCountBits (mode : Mode) (version : Nat) : Nat :=
  let idx : Nat := if version ≤ 9 then 0 else if version ≤ 26 then 1 else 2
  match mode with
  | .NUMERIC => [10, 12, 14].getD idx 0
  | .ALPHANUMERIC => [9, 11, 13].getD idx 0
  | .BYTE => [8, 16, 16].getD idx 0
  | .KANJI => [8, 10, 12].getD idx 0
  | .ECI => 0

/-- `Encoder.appendLengthInfo` (src/unnamed/part_000:536-544): fail when
`numLetters ≥ 1 <<< numBits`, else append `numLetters` in `numBits` bits. -/
def appendLengthInfo (numLetters version : Nat) (mode : Mode) (bits : List Bool) :
    Option (List Bool) :=
  let numBits := mode.getCharacterCountBits version
  if numLetters ≥ 1 <<< numBits then none
  else some (appendBits bits numLetters numBits)

/-- `Encoder.getDigit` (src/unnamed/part_000:568-570): `charCodeAt(0) - 48`;
on the all-digit inputs the claims range over, the code unit is at least 48,
so `Nat` subtraction agrees with the source. -/
def getDigit (c : Nat) : Nat := c - 48

/-- `Encoder.isDigit` (src/unnamed/part_000:572-576). -/
def isDigit (c : Nat) : Bool := 48 ≤ c && c ≤ 57

/-- `Encoder.appendNumericBytes` (src/unnamed/part_000:578-604): the
`while` loop consumes three digits into 10 bits while at least three
characters remain (`i + 2 < length`), then a trailing pair into 7 bits
or a trailing single digit into 4 bits. -/
def appendNumericBytes : List Nat → List Bool → List Bool
  | [], bits => bits
  | [c], bits => appendBits bits (getDigit c) 4
  | [c1, c2], bits => appendBits bits (getDigit c1 * 10 + getDigit c2) 7
  | c1 :: c2 :: c3 :: rest, bits =>
      appendNumericBytes rest
        (appendBits bits (getDigit c1 * 100 + getDigit c2 * 10 + getDigit c3) 10)

/-- `QRNumeric.charToNum` (src/src/qrcode/encoder/QRNumeric.ts:65-72):
digits map to `code - 0x30`, anything else throws. -/
def charToNum (c : Nat) : Option Nat :=
  if 0x30 ≤ c ∧ c ≤ 0x39 then some (c - 0x30) else none

/-- `QRNumeric.strToNum` (src/src/qrcode/encoder/QRNumeric.ts:54-63). -/
def strToNum (cs : List Nat) : Option Nat :=
  cs.foldlM (fun num c => (charToNum c).map (fun d => num * 10 + d)) 0

/-- `QRNumeric.write` (src/src/qrcode/encoder/QRNumeric.ts:25-43): the
`while` loop puts `strToNum` of three-character substrings in 10 bits
while `i + 2 < length`, then a trailing single character in 4 bits or a
trailing pair in 7 bits.  `BitBuffer.put` is the spec's `append_bits`. -/
def qrNumericWrite : List Nat → List Bool → Option (List Bool)
  | [], buffer => some buffer
  | [c], buffer => (strToNum [c]).map (fun n => appendBits buffer n 4)
  | [c1, c2], buffer => (strToNum [c1, c2]).map (fun n => appendBits buffer n 7)
  | c1 :: c2 :: c3 :: rest, buffer => do
      let n ← strToNum [c1, c2, c3]
      qrNumericWrite rest (appendBits buffer n 10)

/-- `Encoder.ALPHANUMERIC_TABLE` (src/unnamed/part_000:41-48): 96 entries
indexed by code unit, value −1 when the character is not alphanumeric. -/
def ALPHANUMERIC_TABLE : List Int :=
  [-1, -1, -1, -1, -1, -1, -1, -1, -1, -1, -1, -1, -1, -1, -1, -1,
   -1, -1, -1, -1, -1, -1, -1, -1, -1, -1, -1, -1, -1, -1, -1, -1,
   36, -1, -1, -1, 37, 38, -1, -1, -1, -1, 39, 40, -1, 41, 42, 43,
    0,  1,  2,  3,  4,  5,  6,  7,  8,  9, 44, -1, -1, -1, -1, -1,
   -1, 10, 11, 12, 13, 14, 15, 16, 17, 18, 19, 20, 21, 22, 23, 24,
   25, 26, 27, 28, 29, 30, 31, 32, 33, 34, 35, -1, -1, -1, -1, -1]

/-- `Encoder.getAlphanumericCode` (src/unnamed/part_000:197-203). -/
def getAlphanumericCode (code : Nat) : Int :=
  if code < ALPHANUMERIC_TABLE.length then ALPHANUMERIC_TABLE.getD code (-1)
  else -1

/-- Charset names occurring in the encoder; `other` stands for any name
`CharacterSetECI.getCharacterSetECIByName` does not recognise. -/
inductive CharsetName where
  | UTF8
  | ISO8859_1
  | SJIS
  | other
deriving DecidableEq

/-- Modelled from the spec (§4.5/§6, and src/unnamed/part_000:50):
`DEFAULT_BYTE_MODE_ENCODING` is UTF-8 in this port. -/
def DEFAULT_BYTE_MODE_ENCODING : CharsetName := .UTF8

/-- Modelled from the spec (§4.5 step 3): the ECI designator values of
`CharacterSetECI` (`CharacterSetECI.ts` is not under `src/`); only
values ≤ 127 occur.  `none` models `getCharacterSetECIByName` returning
`null` for an unrecognised name. -/
def getCharacterSetECIValue : CharsetName → Option Nat
  | .UTF8 => some 26
  | .ISO8859_1 => some 1
  | .SJIS => some 20
  | .other => none

/-- `Encoder.appendECI` (src/unnamed/part_000:687-691): 4-bit ECI mode
indicator `0111` then the designator value in 8 bits. -/
def appendECI (eciValue : Nat) (bits : List Bool) : List Bool :=
  appendBits (appendBits bits Mode.ECI.getBits 4) eciValue 8

/-- The ECI-segment step of `Encoder.encode` (src/unnamed/part_000:72-94):
`encoding` defaults to `DEFAULT_BYTE_MODE_ENCODING` and is replaced by the
hint when one is supplied; the ECI header is appended when the mode is
`BYTE`, a hint was supplied or the encoding differs from the default, and
the name resolves to a `CharacterSetECI`. -/
def encodeHeaderECI (hint : Option CharsetName) (mode : Mode) : List Bool :=
  let encoding := hint.getD DEFAULT_BYTE_MODE_ENCODING
  let hasEncodingHint := hint.isSome
  if mode = Mode.BYTE ∧ (hasEncodingHint ∨ DEFAULT_BYTE_MODE_ENCODING ≠ encoding) then
    match getCharacterSetECIValue encoding with
    | some v => appendECI v []
    | none => []
  else []

/-- The inner scan of `Encoder.chooseMode` (src/unnamed/part_000:215-238):
returns `BYTE` at the first character that is neither a digit nor in the
alphanumeric table, else reports whether a digit or another alphanumeric
character was seen. -/
def chooseModeScan : List Nat → Bool → Bool → Mode
  | [], hasNumeric, hasAlphanumeric =>
      if hasAlphanumeric then .ALPHANUMERIC
      else if hasNumeric then .NUMERIC
      else .BYTE
  | c :: rest, hasNumeric, hasAlphanumeric =>
      if isDigit c then chooseModeScan rest true hasAlphanumeric
      else if getAlphanumericCode c ≠ -1 then chooseModeScan rest hasNumeric true
      else .BYTE

/-- The pair loop of `Encoder.isOnlyDoubleByteKanji`
(src/unnamed/part_000:256-262): every first byte of each 2-byte pair must
lie in `[0x81,0x9F] ∪ [0xE0,0xEB]`. -/
def dbkPairLoop : List Nat → Bool
  | [] => true
  | [b1] => (0x81 ≤ b1 && b1 ≤ 0x9F) || (0xE0 ≤ b1 && b1 ≤ 0xEB)
  | b1 :: _ :: rest =>
      ((0x81 ≤ b1 && b1 ≤ 0x9F) || (0xE0 ≤ b1 && b1 ≤ 0xEB)) && dbkPairLoop rest

/-- `Encoder.isOnlyDoubleByteKanji` (src/unnamed/part_000:241-265), taking
the Shift_JIS encoding of the content as input: `StringEncoding.encode` is
not under `src/`, so the byte sequence (`none` when encoding throws) is a
parameter. -/
def isOnlyDoubleByteKanji (sjisBytes : Option (List Nat)) : Bool :=
  match sjisBytes with
  | none => false
  | some bytes => if bytes.length % 2 ≠ 0 then false else dbkPairLoop bytes

/-- `Encoder.chooseMode` (src/unnamed/part_000:209-239): Kanji when the
declared encoding is Shift_JIS and the content is only double-byte Kanji,
else the character scan. -/
def chooseMode (content : List Nat) (encoding : Option CharsetName)
    (sjisBytes : Option (List Nat)) : Mode :=
  if encoding = some CharsetName.SJIS ∧ isOnlyDoubleByteKanji sjisBytes then .KANJI
  else chooseModeScan content false false

/-- Modelled from the spec (§4.3, JIS X 0510 Table 9): total data+EC
codewords of versions 1..40 (`Version.ts` is not under `src/`); index 0
unused. -/
def VERSION_TOTAL_CODEWORDS : List Nat :=
  [0, 26, 44, 70, 100, 134, 172, 196, 242, 292, 346,
   404, 466, 532, 581, 655, 733, 815, 901, 991, 1085,
   1156, 1258, 1364, 1474, 1588, 1706, 1828, 1921, 2051, 2185,
   2323, 2465, 2611, 2761, 2876, 3034, 3196, 3362, 3532, 3706]

/-- Modelled from the spec (§3): error-correction levels `L, M, Q, H`. -/
inductive ECLevel where
  | L
  | M
  | Q
  | H
deriving DecidableEq

/-- Modelled from the spec (§4.3, JIS X 0510 Table 9): total EC codewords
(EC codewords per block times number of blocks) per version, level L. -/
def EC_TOTAL_L : List Nat :=
  [0, 7, 10, 15, 20, 26, 36, 40, 48, 60, 72,
   80, 96, 104, 120, 132, 144, 168, 180, 196, 224,
   224, 252, 270, 300, 312, 336, 360, 390, 420, 450,
   480, 510, 540, 570, 570, 600, 630, 660, 720, 750]

/-- Modelled from the spec (§4.3, JIS X 0510 Table 9): level M. -/
def EC_TOTAL_M : List Nat :=
  [0, 10, 16, 26, 36, 48, 64, 72, 88, 110, 130,
   150, 176, 198, 216, 240, 280, 308, 338, 364, 416,
   442, 476, 504, 560, 588, 644, 700, 728, 784, 812,
   868, 924, 980, 1036, 1064, 1120, 1204, 1260, 1316, 1372]

/-- Modelled from the spec (§4.3, JIS X 0510 Table 9): level Q. -/
def EC_TOTAL_Q : List Nat :=
  [0, 13, 22, 36, 52, 72, 96, 108, 132, 160, 192,
   224, 260, 288, 320, 360, 408, 448, 504, 546, 600,
   644, 690, 750, 810, 870, 952, 1020, 1050, 1140, 1200,
   1290, 1350, 1440, 1530, 1590, 1680, 1770, 1860, 1950, 2040]

/-- Modelled from the spec (§4.3, JIS X 0510 Table 9): level H. -/
def EC_TOTAL_H : List Nat :=
  [0, 17, 28, 44, 64, 88, 112, 130, 156, 192, 224,
   264, 308, 352, 384, 432, 480, 532, 588, 650, 700,
   750, 816, 900, 960, 1050, 1110, 1200, 1260, 1350, 1440,
   1530, 1620, 1710, 1800, 1890, 1980, 2100, 2220, 2310, 2430]

/-- `version.getTotalCodewords()` of the version-table model. -/
def getTotalCodewords (version : Nat) : Nat :=
  VERSION_TOTAL_CODEWORDS.getD version 0

/-- `version.getECBlocksForLevel(ecLevel).getTotalECCodewords()` of the
version-table model. -/
def getTotalECCodewords (version : Nat) (ecLevel : ECLevel) : Nat :=
  match ecLevel with
  | .L => EC_TOTAL_L.getD version 0
  | .M => EC_TOTAL_M.getD version 0
  | .Q => EC_TOTAL_Q.getD version 0
  | .H => EC_TOTAL_H.getD version 0

/-- The number of data codewords of a `(version, ecLevel)` pair: total
codewords minus total EC codewords (src/unnamed/part_000:310-315). -/
def numDataCodewords (version : Nat) (ecLevel : ECLevel) : Nat :=
  getTotalCodewords version - getTotalECCodewords version ecLevel

/-- `Encoder.willFit` (src/unnamed/part_000:307-319).  The source computes
`totalInputBytes = (numInputBits + 7) / 8` with the TypeScript `/`, which
is exact rational (IEEE-double) division — a division by 8 is exact for
these magnitudes — and then tests `numDataBytes >= totalInputBytes`, so
the comparison is over ℚ, not over truncated integers. -/
def willFit (numInputBits version : Nat) (ecLevel : ECLevel) : Bool :=
  decide ((numDataCodewords version ecLevel : ℚ) ≥ ((numInputBits : ℚ) + 7) / 8)

/-- `Encoder.chooseVersion` (src/unnamed/part_000:291-301): the smallest
version in 1..40 that fits, else fail. -/
def chooseVersion (numInputBits : Nat) (ecLevel : ECLevel) : Option Nat :=
  (List.range 40).map (· + 1) |>.find? (fun v => willFit numInputBits v ecLevel)

/-- The `i < 4 && size < capacity` termination loop of
`Encoder.terminateBits` (src/unnamed/part_000:331-333). -/
def termZeroLoop : Nat → Nat → List Bool → List Bool
  | 0, _, bits => bits
  | fuel + 1, capacity, bits =>
      if bits.length < capacity then termZeroLoop fuel capacity (appendBit bits false)
      else bits

/-- The padding-byte loop of `Encoder.terminateBits`
(src/unnamed/part_000:348-350): byte `i` is `0xEC` for even `i`, `0x11`
for odd `i`. -/
def padByteLoop (numPaddingBytes i : Nat) (bits : List Bool) : List Bool :=
  match numPaddingBytes with
  | 0 => bits
  | k + 1 => padByteLoop k (i + 1) (appendBits bits (if i % 2 = 0 then 0xEC else 0x11) 8)

/-- `Encoder.terminateBits` (src/unnamed/part_000:324-355). -/
def terminateBits (numDataBytes : Nat) (bits : List Bool) : Option (List Bool) :=
  let capacity := numDataBytes * 8
  if bits.length > capacity then none
  else
    let bits1 := termZeroLoop 4 capacity bits
    let numBitsInLastByte := bits1.length % 8
    let bits2 :=
      if numBitsInLastByte > 0 then bits1 ++ List.replicate (8 - numBitsInLastByte) false
      else bits1
    let numPaddingBytes := numDataBytes - getSizeInBytes bits2
    let bits3 := padByteLoop numPaddingBytes 0 bits2
    if bits3.length ≠ capacity then none else some bits3

/-- The byte-pair loop of `Encoder.appendKanjiBytes`
(src/unnamed/part_000:663-685) over the Shift_JIS byte sequence.  When the
sequence has odd length, the final iteration reads `bytes[i + 1]` past the
end; in TypeScript `undefined & 0xff` evaluates to `0`, so the lone last
byte is paired with `0`. -/
def appendKanjiLoop : List Nat → List Bool → Option (List Bool)
  | [], bits => some bits
  | [b1], bits =>
      let code := b1 * 256
      if 0x8140 ≤ code ∧ code ≤ 0x9FFC then
        some (appendBits bits ((code - 0x8140) / 256 * 0xC0 + (code - 0x8140) % 256) 13)
      else if 0xE040 ≤ code ∧ code ≤ 0xEBBF then
        some (appendBits bits ((code - 0xC140) / 256 * 0xC0 + (code - 0xC140) % 256) 13)
      else none
  | b1 :: b2 :: rest, bits =>
      let code := b1 * 256 + b2
      if 0x8140 ≤ code ∧ code ≤ 0x9FFC then
        appendKanjiLoop rest
          (appendBits bits ((code - 0x8140) / 256 * 0xC0 + (code - 0x8140) % 256) 13)
      else if 0xE040 ≤ code ∧ code ≤ 0xEBBF then
        appendKanjiLoop rest
          (appendBits bits ((code - 0xC140) / 256 * 0xC0 + (code - 0xC140) % 256) 13)
      else none

/-- `Encoder.appendKanjiBytes` (src/unnamed/part_000:654-685), taking the
Shift_JIS encoding of the content as input (`StringEncoding.encode` is not
under `src/`; `none` models an encoding failure, rethrown as
`WriterException`). -/
def appendKanjiBytes (sjisBytes : Option (List Nat)) (bits : List Bool) :
    Option (List Bool) :=
  match sjisBytes with
  | none => none
  | some bytes => appendKanjiLoop bytes bits

/-- Modelled from the spec (§4.4): the shape of a Shift_JIS encoder's
output.  Each character contributes either one byte in
`[0x00,0x80] ∪ [0xA1,0xDF]` (ASCII-range and half-width katakana) or a
lead byte in `[0x81,0x9F] ∪ [0xE0,0xFC]` followed by a trail byte. -/
inductive SJISBytes : List Nat → Prop
  | nil : SJISBytes []
  | single {s : Nat} {rest : List Nat} :
      s ≤ 0x80 ∨ (0xA1 ≤ s ∧ s ≤ 0xDF) → SJISBytes rest → SJISBytes (s :: rest)
  | double {l t : Nat} {rest : List Nat} :
      (0x81 ≤ l ∧ l ≤ 0x9F) ∨ (0xE0 ≤ l ∧ l ≤ 0xFC) → t ≤ 0xFF →
      SJISBytes rest → SJISBytes (l :: t :: rest)

/-- `Encoder.getNumDataBytesAndNumECBytesForBlockID`
(src/unnamed/part_000:362-418), returning `(data bytes, EC bytes)` of the
requested block or `none` for a thrown `WriterException`.  The claims
range over non-negative byte counts and a positive block count, where
TypeScript `%` and `Math.floor` division agree with `Int.emod` /
`Int.ediv`. -/
def getNumDataBytesAndNumECBytesForBlockID
    (numTotalBytes numDataBytes numRSBlocks blockID : Int) : Option (Int × Int) :=
  if blockID ≥ numRSBlocks then none
  else
    let numRsBlocksInGroup2 := numTotalBytes % numRSBlocks
    let numRsBlocksInGroup1 := numRSBlocks - numRsBlocksInGroup2
    let numTotalBytesInGroup1 := numTotalBytes / numRSBlocks
    let numTotalBytesInGroup2 := numTotalBytesInGroup1 + 1
    let numDataBytesInGroup1 := numDataBytes / numRSBlocks
    let numDataBytesInGroup2 := numDataBytesInGroup1 + 1
    let numEcBytesInGroup1 := numTotalBytesInGroup1 - numDataBytesInGroup1
    let numEcBytesInGroup2 := numTotalBytesInGroup2 - numDataBytesInGroup2
    if numEcBytesInGroup1 ≠ numEcBytesInGroup2 then none
    else if numRSBlocks ≠ numRsBlocksInGroup1 + numRsBlocksInGroup2 then none
    else if numTotalBytes ≠
        (numDataBytesInGroup1 + numEcBytesInGroup1) * numRsBlocksInGroup1 +
          (numDataBytesInGroup2 + numEcBytesInGroup2) * numRsBlocksInGroup2 then none
    else if blockID < numRsBlocksInGroup1 then
      some (numDataBytesInGroup1, numEcBytesInGroup1)
    else
      some (numDataBytesInGroup2, numEcBytesInGroup2)

/-- Modelled from the spec (§4.2): multiplication by `x` in GF(2⁸) with
primitive polynomial `0x11D`. -/
def xtime (a : Nat) : Nat :=
  if 256 ≤ a * 2 then a * 2 ^^^ 0x11D else a * 2

/-- Modelled from the spec (§4.2): shift-and-reduce product over the low
8 bits of `b`; extensionally the field product the spec's `exp`/`log`
tables compute. -/
def gfMulAux : Nat → Nat → Nat → Nat
  | 0, _, _ => 0
  | fuel + 1, a, b =>
      (if b % 2 = 1 then a else 0) ^^^ gfMulAux fuel (xtime a) (b / 2)

/-- Modelled from the spec (§4.2): multiplication in GF(2⁸)/`0x11D`. -/
def gfMul (a b : Nat) : Nat := gfMulAux 8 a b

/-- Coefficient-wise XOR of polynomials over GF(2⁸). -/
def zipXor (a b : List Nat) : List Nat := List.zipWith (· ^^^ ·) a b

/-- Modelled from the spec (§4.2): multiply a monic polynomial (highest
degree first) by the binomial `x + r`; in GF(2⁸), `x - αⁱ = x + αⁱ`. -/
def polyMulBinomial (p : List Nat) (r : Nat) : List Nat :=
  zipXor (p ++ [0]) (0 :: p.map (fun c => gfMul r c))

/-- Modelled from the spec (§4.2): `α^i` for `α = 2`. -/
def gfPow (i : Nat) : Nat := Nat.rec 1 (fun _ acc => xtime acc) i

/-- Modelled from the spec (§4.2): the generator polynomial for `d` EC
codewords, `∏ i in 0..d-1, (x - αⁱ)`, coefficients highest degree first. -/
def genPoly (d : Nat) : List Nat :=
  (List.range d).foldl (fun p i => polyMulBinomial p (gfPow i)) [1]

/-- Modelled from the spec (§4.2): one long-division pass computing
`M(x) mod G(x)`; `g` is monic so the lead coefficient cancels with
`c · g`. -/
def rsRemAux : Nat → List Nat → List Nat → List Nat
  | 0, rem, _ => rem
  | _ + 1, [], _ => []
  | steps + 1, c :: rest, g =>
      let scaled := (g.drop 1).map (fun gi => gfMul c gi)
      rsRemAux steps (zipXor rest (scaled ++ List.replicate (rest.length - scaled.length) 0)) g

/-- Modelled from the spec (§4.2): systematic Reed–Solomon encoding —
the remainder of `data(x) · x^d` modulo the degree-`d` generator,
`d` coefficients highest degree first. -/
def rsRemainder (data : List Nat) (d : Nat) : List Nat :=
  rsRemAux data.length (data ++ List.replicate d 0) (genPoly d)

/-- `Encoder.generateECBytes` (src/unnamed/part_000:507-524): the last
`numEcBytesInBlock` slots of the Reed–Solomon-encoded buffer, i.e. the
remainder coefficients.  `ReedSolomonEncoder` is not under `src/`; per the
spec (§4.2) it fails when the EC count is zero or the data length is
zero, and otherwise yields the spec-modelled `rsRemainder`. -/
def generateECBytes (dataBytes : List Nat) (numEcBytesInBlock : Nat) : Option (List Nat) :=
  if numEcBytesInBlock = 0 ∨ dataBytes.length = 0 then none
  else some (rsRemainder dataBytes numEcBytesInBlock)

/-- Modelled from the spec (§4.1 BitStream): `to_bytes` at a byte-aligned
offset — the byte whose bits start at `bitOffset`, MSB first; bits past
the end of the buffer read as 0 as in the array-backed source class. -/
def byteAt (bits : List Bool) (bitOffset : Nat) : Nat :=
  (List.range 8).foldl
    (fun acc j => acc * 2 + (if bits.getD (bitOffset + j) false then 1 else 0)) 0

/-- The `bits.toBytes(8 * dataBytesOffset, dataBytes, 0, size)` read of
`Encoder.interleaveWithECBytes` (src/unnamed/part_000:460): `size`
consecutive bytes starting at byte `offset`. -/
def blockDataBytes (bits : List Bool) (offset size : Nat) : List Nat :=
  (List.range size).map (fun j => byteAt bits (8 * (offset + j)))

/-- The block-building loop of `Encoder.interleaveWithECBytes`
(src/unnamed/part_000:444-469): for each block index, look up its sizes,
slice its data bytes at the running offset and generate its EC bytes.
`fuel` counts the remaining iterations (`numRSBlocks - i`). -/
def buildBlocksAux (bits : List Bool) (numTotalBytes numDataBytes numRSBlocks : Nat) :
    Nat → Nat → Nat → Option (List (List Nat × List Nat) × Nat)
  | _, 0, offset => some ([], offset)
  | i, fuel + 1, offset => do
      let (d, e) ← getNumDataBytesAndNumECBytesForBlockID
        numTotalBytes numDataBytes numRSBlocks i
      let dataBytes := blockDataBytes bits offset d.toNat
      let ecBytes ← generateECBytes dataBytes e.toNat
      let (restBlocks, finalOffset) ←
        buildBlocksAux bits numTotalBytes numDataBytes numRSBlocks
          (i + 1) fuel (offset + d.toNat)
      some ((dataBytes, ecBytes) :: restBlocks, finalOffset)

/-- The two placement loops of `Encoder.interleaveWithECBytes`
(src/unnamed/part_000:478-497): for each index `i` up to `maxLen`, for
each block in order, append the block's byte `i` in 8 bits if the block
has one. -/
def placeLoop (byteLists : List (List Nat)) (maxLen : Nat) (acc : List Bool) : List Bool :=
  (List.range maxLen).foldl
    (fun acc1 i =>
      byteLists.foldl
        (fun acc2 bytes => if i < bytes.length then appendBits acc2 (bytes.getD i 0) 8 else acc2)
        acc1)
    acc

/-- `Encoder.interleaveWithECBytes` (src/unnamed/part_000:424-505). -/
def interleaveWithECBytes (bits : List Bool) (numTotalBytes numDataBytes numRSBlocks : Nat) :
    Option (List Bool) := do
  if getSizeInBytes bits ≠ numDataBytes then none
  else
    let (blocks, dataBytesOffset) ←
      buildBlocksAux bits numTotalBytes numDataBytes numRSBlocks 0 numRSBlocks 0
    if numDataBytes ≠ dataBytesOffset then none
    else
      let maxNumDataBytes := blocks.foldl (fun m b => max m b.1.length) 0
      let maxNumEcBytes := blocks.foldl (fun m b => max m b.2.length) 0
      let result := placeLoop (blocks.map (·.2))
        maxNumEcBytes (placeLoop (blocks.map (·.1)) maxNumDataBytes [])
      if numTotalBytes ≠ getSizeInBytes result then none else some result

lemma natBits_length (value n : Nat) : (natBits value n).length = n := by
  simp [natBits]

lemma appendBits_length (bits : List Bool) (value n : Nat) :
    (appendBits bits value n).length = bits.length + n := by
  simp [appendBits, natBits_length]

lemma appendNumericBytes_factor :
    ∀ (content : List Nat) (bits : List Bool),
      appendNumericBytes content bits = bits ++ appendNumericBytes content []
  | [], bits => by simp [appendNumericBytes]
  | [c], bits => by simp [appendNumericBytes, appendBits]
  | [c1, c2], bits => by simp [appendNumericBytes, appendBits]
  | c1 :: c2 :: c3 :: rest, bits => by
      show appendNumericBytes rest _ = bits ++ appendNumericBytes rest _
      rw [appendNumericBytes_factor rest (appendBits bits _ 10),
        appendNumericBytes_factor rest (appendBits [] _ 10)]
      simp [appendBits]

lemma appendNumericBytes_length :
    ∀ (content : List Nat) (bits : List Bool),
      (appendNumericBytes content bits).length =
        bits.length + (10 * (content.length / 3) + [0, 4, 7].getD (content.length % 3) 0)
  | [], bits => by simp [appendNumericBytes]
  | [c], bits => by simp [appendNumericBytes, appendBits_length]
  | [c1, c2], bits => by simp [appendNumericBytes, appendBits_length]
  | c1 :: c2 :: c3 :: rest, bits => by
      show (appendNumericBytes rest _).length = _
      rw [appendNumericBytes_length rest (appendBits bits _ 10), appendBits_length]
      have h3 : (c1 :: c2 :: c3 :: rest).length = rest.length + 3 := by simp
      rw [h3]
      have hdiv : (rest.length + 3) / 3 = rest.length / 3 + 1 := by omega
      have hmod : (rest.length + 3) % 3 = rest.length % 3 := by omega
      rw [hdiv, hmod]
      ring

/-- C8.  For all-digit content of length `n`, `appendNumericBytes` packs
three digits into 10 bits, a trailing pair into 7 bits and a trailing
single digit into 4 bits (decimal concatenation), appends the bits after
the existing buffer, and the number of data bits emitted is
`10·⌊n/3⌋ + {0,4,7}[n mod 3]`. -/
theorem appendNumericBytes_claim (content : List Nat) (bits : List Bool)
    (hdig : ∀ c ∈ content, isDigit c = true) :
    appendNumericBytes content bits = bits ++ appendNumericBytes content [] ∧
    (appendNumericBytes content bits).length =
      bits.length + (10 * (content.length / 3) + [0, 4, 7].getD (content.length % 3) 0) ∧
    (∀ c1 c2 c3 rest b, appendNumericBytes (c1 :: c2 :: c3 :: rest) b =
      appendNumericBytes rest
        (appendBits b (getDigit c1 * 100 + getDigit c2 * 10 + getDigit c3) 10)) ∧
    (∀ c1 c2 b, appendNumericBytes [c1, c2] b =
      appendBits b (getDigit c1 * 10 + getDigit c2) 7) ∧
    (∀ c b, appendNumericBytes [c] b = appendBits b (getDigit c) 4) :=
  ⟨appendNumericBytes_factor content bits, appendNumericBytes_length content bits,
    fun _ _ _ _ _ => rfl, fun _ _ _ => rfl, fun _ _ => rfl⟩

/-- Witness for C8 at the content `"1234"` (code units 49..52). -/
theorem appendNumericBytes_claim_witness :
    (∀ c ∈ [49, 50, 51, 52], isDigit c = true) ∧
    (appendNumericBytes [49, 50, 51, 52] [true] =
        [true] ++ appendNumericBytes [49, 50, 51, 52] [] ∧
      (appendNumericBytes [49, 50, 51, 52] [true]).length =
        [true].length +
          (10 * ([49, 50, 51, 52].length / 3) + [0, 4, 7].getD ([49, 50, 51, 52].length % 3) 0) ∧
      (∀ c1 c2 c3 rest b, appendNumericBytes (c1 :: c2 :: c3 :: rest) b =
        appendNumericBytes rest
          (appendBits b (getDigit c1 * 100 + getDigit c2 * 10 + getDigit c3) 10)) ∧
      (∀ c1 c2 b, appendNumericBytes [c1, c2] b =
        appendBits b (getDigit c1 * 10 + getDigit c2) 7) ∧
      (∀ c b, appendNumericBytes [c] b = appendBits b (getDigit c) 4)) :=
  ⟨by decide, appendNumericBytes_claim [49, 50, 51, 52] [true] (by decide)⟩

/-- C9.  `appendLengthInfo` fails exactly when
`numLetters ≥ 2 ^ charCountBits(mode, version)`, and otherwise appends the
value `numLetters` in exactly `charCountBits(mode, version)` bits; the
boundary count `2 ^ charCountBits − 1` succeeds and `2 ^ charCountBits`
fails. -/
theorem appendLengthInfo_claim (numLetters version : Nat) (mode : Mode) (bits : List Bool) :
    (appendLengthInfo numLetters version mode bits = none ↔
      2 ^ mode.getCharacterCountBits version ≤ numLetters) ∧
    (numLetters < 2 ^ mode.getCharacterCountBits version →
      appendLengthInfo numLetters version mode bits =
        some (appendBits bits numLetters (mode.getCharacterCountBits version))) ∧
    ((appendLengthInfo numLetters version mode bits).map List.length =
      if 2 ^ mode.getCharacterCountBits version ≤ numLetters then none
      else some (bits.length + mode.getCharacterCountBits version)) ∧
    appendLengthInfo (2 ^ mode.getCharacterCountBits version - 1) version mode bits ≠ none ∧
    appendLengthInfo (2 ^ mode.getCharacterCountBits version) version mode bits = none := by
  have hpos : 0 < 2 ^ mode.getCharacterCountBits version := Nat.pos_pow_of_pos _ (by omega)
  by_cases h : 2 ^ mode.getCharacterCountBits version ≤ numLetters <;>
    simp [appendLengthInfo, Nat.one_shiftLeft, h, appendBits_length, Nat.sub_lt hpos]

/-- Witness for C9 at `numLetters = 512`, Numeric mode, version 1
(character-count width 10). -/
theorem appendLengthInfo_claim_witness :
    (appendLengthInfo 512 1 Mode.NUMERIC [] = none ↔
      2 ^ Mode.NUMERIC.getCharacterCountBits 1 ≤ 512) ∧
    (512 < 2 ^ Mode.NUMERIC.getCharacterCountBits 1 →
      appendLengthInfo 512 1 Mode.NUMERIC [] =
        some (appendBits [] 512 (Mode.NUMERIC.getCharacterCountBits 1))) ∧
    ((appendLengthInfo 512 1 Mode.NUMERIC []).map List.length =
      if 2 ^ Mode.NUMERIC.getCharacterCountBits 1 ≤ 512 then none
      else some (([] : List Bool).length + Mode.NUMERIC.getCharacterCountBits 1)) ∧
    appendLengthInfo (2 ^ Mode.NUMERIC.getCharacterCountBits 1 - 1) 1 Mode.NUMERIC [] ≠ none ∧
    appendLengthInfo (2 ^ Mode.NUMERIC.getCharacterCountBits 1) 1 Mode.NUMERIC [] = none :=
  appendLengthInfo_claim 512 1 Mode.NUMERIC []

lemma strToNum_one (c : Nat) (h : isDigit c = true) :
    strToNum [c] = some (getDigit c) := by
  have hb : 0x30 ≤ c ∧ c ≤ 0x39 := by
    simpa [isDigit, Bool.and_eq_true, decide_eq_true_eq] using h
  simp [strToNum, charToNum, hb, getDigit]

lemma strToNum_two (c1 c2 : Nat) (h1 : isDigit c1 = true) (h2 : isDigit c2 = true) :
    strToNum [c1, c2] = some (getDigit c1 * 10 + getDigit c2) := by
  have hb1 : 0x30 ≤ c1 ∧ c1 ≤ 0x39 := by
    simpa [isDigit, Bool.and_eq_true, decide_eq_true_eq] using h1
  have hb2 : 0x30 ≤ c2 ∧ c2 ≤ 0x39 := by
    simpa [isDigit, Bool.and_eq_true, decide_eq_true_eq] using h2
  simp [strToNum, charToNum, hb1, hb2, getDigit]

lemma strToNum_three (c1 c2 c3 : Nat) (h1 : isDigit c1 = true) (h2 : isDigit c2 = true)
    (h3 : isDigit c3 = true) :
    strToNum [c1, c2, c3] = some (getDigit c1 * 100 + getDigit c2 * 10 + getDigit c3) := by
  have hb1 : 0x30 ≤ c1 ∧ c1 ≤ 0x39 := by
    simpa [isDigit, Bool.and_eq_true, decide_eq_true_eq] using h1
  have hb2 : 0x30 ≤ c2 ∧ c2 ≤ 0x39 := by
    simpa [isDigit, Bool.and_eq_true, decide_eq_true_eq] using h2
  have hb3 : 0x30 ≤ c3 ∧ c3 ≤ 0x39 := by
    simpa [isDigit, Bool.and_eq_true, decide_eq_true_eq] using h3
  simp [strToNum, charToNum, hb1, hb2, hb3, getDigit]
  ring

lemma qrNumericWrite_eq_general :
    ∀ (data : List Nat) (buffer : List Bool), (∀ c ∈ data, isDigit c = true) →
      qrNumericWrite data buffer = some (appendNumericBytes data buffer)
  | [], _, _ => rfl
  | [c], buffer, h => by
      simp [qrNumericWrite, appendNumericBytes, strToNum_one c (h c (by simp))]
  | [c1, c2], buffer, h => by
      simp [qrNumericWrite, appendNumericBytes,
        strToNum_two c1 c2 (h c1 (by simp)) (h c2 (by simp))]
  | c1 :: c2 :: c3 :: rest, buffer, h => by
      have hrest : ∀ c ∈ rest, isDigit c = true := fun c hc => h c (by simp [hc])
      show (strToNum [c1, c2, c3] >>= fun n => qrNumericWrite rest (appendBits buffer n 10)) = _
      rw [strToNum_three c1 c2 c3 (h c1 (by simp)) (h c2 (by simp)) (h c3 (by simp))]
      show qrNumericWrite rest _ = _
      rw [qrNumericWrite_eq_general rest _ hrest]
      rfl

/-- C10.  On all-digit input, `QRNumeric.write` on an empty buffer produces
exactly the bit sequence `Encoder.appendNumericBytes` produces on an empty
bit array: the two numeric segment encoders agree. -/
theorem qrNumericWrite_claim (data : List Nat) (h : ∀ c ∈ data, isDigit c = true) :
    qrNumericWrite data [] = some (appendNumericBytes data []) :=
  qrNumericWrite_eq_general data [] h

/-- Witness for C10 at the content `"0987"` (code units 48, 57, 56, 55). -/
theorem qrNumericWrite_claim_witness :
    qrNumericWrite [48, 57, 56, 55] [] = some (appendNumericBytes [48, 57, 56, 55] []) :=
  qrNumericWrite_claim [48, 57, 56, 55] (by decide)

lemma isDigit_alnumCode {c : Nat} (h : isDigit c = true) : getAlphanumericCode c ≠ -1 := by
  have hb : 48 ≤ c ∧ c ≤ 57 := by
    simpa [isDigit, Bool.and_eq_true, decide_eq_true_eq] using h
  obtain ⟨h1, h2⟩ := hb
  interval_cases c <;> decide

lemma chooseModeScan_eq :
    ∀ (content : List Nat) (hasNumeric hasAlphanumeric : Bool),
      chooseModeScan content hasNumeric hasAlphanumeric =
        if content.any (fun c => getAlphanumericCode c == -1) then Mode.BYTE
        else if hasAlphanumeric || content.any (fun c => !isDigit c) then Mode.ALPHANUMERIC
        else if hasNumeric || content.any (fun c => isDigit c) then Mode.NUMERIC
        else Mode.BYTE
  | [], hn, ha => by simp [chooseModeScan]
  | c :: rest, hn, ha => by
      by_cases hd : isDigit c = true
      · have hal : (getAlphanumericCode c == -1) = false := by
          simpa using isDigit_alnumCode hd
        rw [chooseModeScan, if_pos hd, chooseModeScan_eq rest true ha]
        simp [hal, hd]
      · by_cases hoc : getAlphanumericCode c = -1
        · rw [chooseModeScan, if_neg (by simp [hd]), if_neg (by simp [hoc])]
          simp [hoc]
        · rw [chooseModeScan, if_neg (by simp [hd]), if_pos hoc,
            chooseModeScan_eq rest hn true]
          simp [hoc, Bool.not_eq_true _ ▸ hd, hd]

lemma chooseModeScan_ne_kanji (content : List Nat) :
    chooseModeScan content false false ≠ Mode.KANJI := by
  rw [chooseModeScan_eq]
  split
  · exact fun h => Mode.noConfusion h
  · split
    · exact fun h => Mode.noConfusion h
    · split
      · exact fun h => Mode.noConfusion h
      · exact fun h => Mode.noConfusion h

lemma dbkPairLoop_iff :
    ∀ (bytes : List Nat), bytes.length % 2 = 0 →
      (dbkPairLoop bytes = true ↔
        ∀ i, 2 * i < bytes.length →
          (0x81 ≤ bytes.getD (2 * i) 0 ∧ bytes.getD (2 * i) 0 ≤ 0x9F) ∨
          (0xE0 ≤ bytes.getD (2 * i) 0 ∧ bytes.getD (2 * i) 0 ≤ 0xEB))
  | [], _ => by simp [dbkPairLoop]
  | [b], h => by simp at h
  | b1 :: b2 :: rest, h => by
      have hr : rest.length % 2 = 0 := by
        have : (b1 :: b2 :: rest).length = rest.length + 2 := by simp
        omega
      rw [dbkPairLoop, Bool.and_eq_true, dbkPairLoop_iff rest hr]
      constructor
      · rintro ⟨h1, h2⟩ i hi
        match i with
        | 0 =>
            simp only [Bool.or_eq_true, Bool.and_eq_true, decide_eq_true_eq] at h1
            simpa using h1
        | j + 1 =>
            have : (b1 :: b2 :: rest).getD (2 * (j + 1)) 0 = rest.getD (2 * j) 0 := by
              have : 2 * (j + 1) = 2 * j + 1 + 1 := by omega
              rw [this]
              rfl
            rw [this]
            apply h2
            simp at hi
            omega
      · intro hall
        constructor
        · have h0 := hall 0 (by simp)
          simp only [Bool.or_eq_true, Bool.and_eq_true, decide_eq_true_eq]
          simpa using h0
        · intro i hi
          have : rest.getD (2 * i) 0 = (b1 :: b2 :: rest).getD (2 * (i + 1)) 0 := by
            have h21 : 2 * (i + 1) = 2 * i + 1 + 1 := by omega
            rw [h21]
            rfl
          rw [this]
          apply hall
          simp
          omega

/-- C4.  With no hint (or a non-Shift_JIS hint), `chooseMode` returns
`BYTE` when some character is outside the 45-character alphanumeric table,
else `ALPHANUMERIC` when some character is a non-digit alphanumeric
character, else `NUMERIC` when some character is a digit, and `BYTE` for
the empty string; with a Shift_JIS hint it returns `KANJI` exactly when
`isOnlyDoubleByteKanji` holds, i.e. the Shift_JIS byte count is even and
every pair's first byte lies in `[0x81,0x9F] ∪ [0xE0,0xEB]`. -/
theorem chooseMode_claim (content : List Nat) (encoding : Option CharsetName)
    (sjisBytes : Option (List Nat)) :
    (encoding ≠ some CharsetName.SJIS →
      chooseMode content encoding sjisBytes =
        if content.any (fun c => getAlphanumericCode c == -1) then Mode.BYTE
        else if content.any (fun c => !isDigit c) then Mode.ALPHANUMERIC
        else if content.any (fun c => isDigit c) then Mode.NUMERIC
        else Mode.BYTE) ∧
    (chooseMode content (some CharsetName.SJIS) sjisBytes = Mode.KANJI ↔
      isOnlyDoubleByteKanji sjisBytes = true) ∧
    (∀ bytes : List Nat,
      isOnlyDoubleByteKanji (some bytes) = true ↔
        bytes.length % 2 = 0 ∧
          ∀ i, 2 * i < bytes.length →
            (0x81 ≤ bytes.getD (2 * i) 0 ∧ bytes.getD (2 * i) 0 ≤ 0x9F) ∨
            (0xE0 ≤ bytes.getD (2 * i) 0 ∧ bytes.getD (2 * i) 0 ≤ 0xEB)) ∧
    isOnlyDoubleByteKanji none = false := by
  refine ⟨?_, ?_, ?_, rfl⟩
  · intro hne
    rw [chooseMode, if_neg (by simp [hne]), chooseModeScan_eq]
    simp only [Bool.false_or]
  · rw [chooseMode]
    by_cases hdbk : isOnlyDoubleByteKanji sjisBytes = true
    · simp [hdbk]
    · rw [if_neg (by simp [hdbk])]
      simp only [Bool.not_eq_true] at hdbk
      simp [hdbk, chooseModeScan_ne_kanji content]
  · intro bytes
    rw [isOnlyDoubleByteKanji]
    by_cases hev : bytes.length % 2 = 0
    · rw [if_neg (by omega), dbkPairLoop_iff bytes hev]
      simp [hev]
    · rw [if_pos (by omega)]
      simp [hev]

/-- Witness for C4 at the content `"AB1"` (code units 65, 66, 49) with no
encoding hint. -/
theorem chooseMode_claim_witness :
    chooseMode [65, 66, 49] none none =
      if [65, 66, 49].any (fun c => getAlphanumericCode c == -1) then Mode.BYTE
      else if [65, 66, 49].any (fun c => !isDigit c) then Mode.ALPHANUMERIC
      else if [65, 66, 49].any (fun c => isDigit c) then Mode.NUMERIC
      else Mode.BYTE :=
  (chooseMode_claim [65, 66, 49] none none).1 (by simp)

lemma termZeroLoop_eq :
    ∀ (fuel capacity : Nat) (bits : List Bool),
      termZeroLoop fuel capacity bits =
        bits ++ List.replicate (min fuel (capacity - bits.length)) false
  | 0, _, bits => by simp [termZeroLoop]
  | fuel + 1, capacity, bits => by
      rw [termZeroLoop]
      by_cases h : bits.length < capacity
      · rw [if_pos h, termZeroLoop_eq fuel capacity (appendBit bits false)]
        have hlen : (appendBit bits false).length = bits.length + 1 := by simp [appendBit]
        rw [hlen]
        have hmin : min (fuel + 1) (capacity - bits.length) =
            min fuel (capacity - (bits.length + 1)) + 1 := by omega
        rw [hmin, appendBit, List.append_assoc]
        congr 1
      · rw [if_neg h]
        have : min (fuel + 1) (capacity - bits.length) = 0 := by omega
        simp [this]

lemma padByteLoop_factor :
    ∀ (k i : Nat) (bits : List Bool),
      padByteLoop k i bits = bits ++ padByteLoop k i []
  | 0, _, bits => by simp [padByteLoop]
  | k + 1, i, bits => by
      rw [padByteLoop, padByteLoop]
      rw [padByteLoop_factor k (i + 1) (appendBits bits _ 8),
        padByteLoop_factor k (i + 1) (appendBits [] _ 8)]
      simp [appendBits]

lemma padByteLoop_length :
    ∀ (k i : Nat) (bits : List Bool), (padByteLoop k i bits).length = bits.length + 8 * k
  | 0, _, bits => by simp [padByteLoop]
  | k + 1, i, bits => by
      rw [padByteLoop, padByteLoop_length k (i + 1) _, appendBits_length]
      ring

/-- C5.  With initial size at most `numDataBytes · 8`, `terminateBits`
appends at most four `0` termination bits without exceeding capacity
(`t = min 4 (capacity − size)`), zero-pads to a byte boundary (the further
`(8 − (size + t) mod 8) mod 8` zeros), fills every remaining whole byte
with the alternating `0xEC`/`0x11` pattern of the padding loop, and the
resulting size is exactly `numDataBytes · 8`; when the initial size
exceeds the capacity it fails, appending nothing. -/
theorem terminateBits_claim (numDataBytes : Nat) (bits : List Bool) :
    (numDataBytes * 8 < bits.length → terminateBits numDataBytes bits = none) ∧
    (∀ t z m : Nat, t = min 4 (numDataBytes * 8 - bits.length) →
      z = t + (8 - (bits.length + t) % 8) % 8 →
      m = numDataBytes - (bits.length + z) / 8 →
      bits.length ≤ numDataBytes * 8 →
      terminateBits numDataBytes bits =
        some (bits ++ List.replicate z false ++ padByteLoop m 0 []) ∧
      (bits ++ List.replicate z false ++ padByteLoop m 0 []).length = numDataBytes * 8) := by
  constructor
  · intro h
    rw [terminateBits, if_pos (by omega)]
  · intro t z m htdef hzdef hmdef hle
    have hz8 : (bits.length + z) % 8 = 0 := by omega
    have hle2 : bits.length + z ≤ numDataBytes * 8 := by omega
    have hlen3 : (bits ++ List.replicate z false ++ padByteLoop m 0 []).length =
        numDataBytes * 8 := by
      rw [List.length_append, List.length_append, List.length_replicate,
        padByteLoop_length m 0 []]
      simp only [List.length_nil]
      have h8 : 8 * ((bits.length + z) / 8) = bits.length + z := by omega
      omega
    refine ⟨?_, hlen3⟩
    rw [terminateBits, if_neg (by omega)]
    simp only
    rw [termZeroLoop_eq 4 (numDataBytes * 8) bits, ← htdef]
    have hlen1 : (bits ++ List.replicate t false).length = bits.length + t := by simp
    rw [hlen1]
    have hbits2 :
        (if (bits.length + t) % 8 > 0 then
          bits ++ List.replicate t false ++ List.replicate (8 - (bits.length + t) % 8) false
        else bits ++ List.replicate t false) = bits ++ List.replicate z false := by
      by_cases h8 : (bits.length + t) % 8 = 0
      · rw [if_neg (by omega)]
        have : z = t := by omega
        rw [this]
      · rw [if_pos (by omega), List.append_assoc, ← List.replicate_add]
        have : t + (8 - (bits.length + t) % 8) = z := by
          have hlt : (bits.length + t) % 8 < 8 := Nat.mod_lt _ (by omega)
          omega
        rw [this]
    rw [hbits2]
    have hsz : getSizeInBytes (bits ++ List.replicate z false) = (bits.length + z) / 8 := by
      rw [getSizeInBytes, List.length_append, List.length_replicate]
      omega
    rw [hsz, ← hmdef, padByteLoop_factor m 0 (bits ++ List.replicate z false)]
    rw [if_neg (by omega)]

/-- Witness for C5 at `numDataBytes = 2` with three bits in the buffer. -/
theorem terminateBits_claim_witness :
    terminateBits 2 [true, false, true] =
      some ([true, false, true] ++ List.replicate 5 false ++ padByteLoop 1 0 []) ∧
    ([true, false, true] ++ List.replicate 5 false ++ padByteLoop 1 0 []).length = 2 * 8 :=
  (terminateBits_claim 2 [true, false, true]).2 4 5 1 (by decide) (by decide) (by decide)
    (by decide)

/-- C2 counterexample: with a caller-supplied charset hint equal to the
default byte-mode encoding (UTF-8), the resolved charset equals the
default, yet `Encoder.encode` emits an ECI header, because its guard
tests `hasEncodingHint || DEFAULT_BYTE_MODE_ENCODING !== encoding` rather
than the resolved charset differing from the default. -/
theorem encodeHeaderECI_counterexample :
    (some CharsetName.UTF8).getD DEFAULT_BYTE_MODE_ENCODING = DEFAULT_BYTE_MODE_ENCODING ∧
    encodeHeaderECI (some CharsetName.UTF8) Mode.BYTE ≠ [] ∧
    encodeHeaderECI (some CharsetName.UTF8) Mode.BYTE = appendECI 26 [] := by
  decide

/-- C2 amended.  The ECI header (mode indicator `0111` in 4 bits followed
by the designator value in 8 bits) is prepended to the header bits if and
only if the mode is Byte and the caller supplied a charset hint whose name
resolves to a known `CharacterSetECI` — even when the resolved charset
equals the default byte-mode encoding; when no hint is supplied no ECI
header is emitted. -/
theorem encodeHeaderECI_amended (hint : Option CharsetName) (mode : Mode) :
    (encodeHeaderECI hint mode ≠ [] ↔
      mode = Mode.BYTE ∧ hint.isSome = true ∧
        (getCharacterSetECIValue (hint.getD DEFAULT_BYTE_MODE_ENCODING)).isSome = true) ∧
    (∀ c v, hint = some c → getCharacterSetECIValue c = some v → mode = Mode.BYTE →
      encodeHeaderECI hint mode = appendECI v []) ∧
    encodeHeaderECI none mode = [] ∧
    (∀ v, appendECI v [] = natBits Mode.ECI.getBits 4 ++ natBits v 8) := by
  refine ⟨?_, ?_, by simp [encodeHeaderECI], fun v => by simp [appendECI, appendBits]⟩
  · match hint with
    | none => simp [encodeHeaderECI]
    | some c => cases c <;> cases mode <;> decide
  · rintro c v rfl hv rfl
    simp [encodeHeaderECI, hv]

/-- Witness for the amended C2 at a Shift_JIS hint in Byte mode. -/
theorem encodeHeaderECI_amended_witness :
    encodeHeaderECI (some CharsetName.SJIS) Mode.BYTE = appendECI 20 [] :=
  (encodeHeaderECI_amended (some CharsetName.SJIS) Mode.BYTE).2.1
    CharsetName.SJIS 20 rfl rfl rfl

/-- C1 (code-bug evidence).  At `numInputBits = 152`, version 1, level L,
the ceiling-division capacity test of the claim passes —
`⌈152/8⌉ = 19 ≤ 19` data codewords — yet `willFit` returns `false`,
because the port divides `(numInputBits + 7) / 8` with the exact
(floating-point) TypeScript `/` instead of integer division, comparing
`19 ≥ 19.875`. -/
theorem willFit_claim_failing_input :
    willFit 152 1 ECLevel.L = false ∧
    (152 + 8 - 1) / 8 ≤ numDataCodewords 1 ECLevel.L ∧
    numDataCodewords 1 ECLevel.L = 19 ∧
    getTotalCodewords 1 = 26 ∧ getTotalECCodewords 1 ECLevel.L = 7 := by
  refine ⟨?_, by decide, by decide, by decide, by decide⟩
  have h19 : numDataCodewords 1 ECLevel.L = 19 := by decide
  rw [willFit, h19]
  rw [decide_eq_false_iff_not]
  norm_num

lemma SJISBytes_head_le {x : Nat} {r : List Nat} (h : SJISBytes (x :: r)) : x ≤ 0xFC := by
  cases h with
  | single hs _ => rcases hs with h1 | h1 <;> omega
  | double hl _ _ => rcases hl with h1 | h1 <;> omega

lemma appendKanjiLoop_single_head_none {s : Nat} {rest : List Nat} (bits : List Bool)
    (hs : s ≤ 0x80 ∨ (0xA1 ≤ s ∧ s ≤ 0xDF)) (hrest : SJISBytes rest) :
    appendKanjiLoop (s :: rest) bits = none := by
  cases rest with
  | nil =>
      rw [appendKanjiLoop]
      rw [if_neg (by rcases hs with h1 | h1 <;> omega),
        if_neg (by rcases hs with h1 | h1 <;> omega)]
  | cons b2 rest2 =>
      have hb2 : b2 ≤ 0xFC := SJISBytes_head_le hrest
      rw [appendKanjiLoop]
      rw [if_neg (by rcases hs with h1 | h1 <;> omega),
        if_neg (by rcases hs with h1 | h1 <;> omega)]

lemma appendKanjiLoop_odd {bytes : List Nat} (hs : SJISBytes bytes) :
    ∀ (bits : List Bool), bytes.length % 2 = 1 → appendKanjiLoop bytes bits = none := by
  induction hs with
  | nil => intro bits h; simp at h
  | single hsng hrest _ =>
      intro bits _
      exact appendKanjiLoop_single_head_none bits hsng hrest
  | @double l t rest hl ht _ ih =>
      intro bits hodd
      have hrodd : rest.length % 2 = 1 := by
        have : (l :: t :: rest).length = rest.length + 2 := by simp
        omega
      rw [appendKanjiLoop]
      by_cases h1 : 0x8140 ≤ l * 256 + t ∧ l * 256 + t ≤ 0x9FFC
      · rw [if_pos h1]
        exact ih _ hrodd
      · rw [if_neg h1]
        by_cases h2 : 0xE040 ≤ l * 256 + t ∧ l * 256 + t ≤ 0xEBBF
        · rw [if_pos h2]
          exact ih _ hrodd
        · rw [if_neg h2]

/-- C3.  Over the Shift_JIS byte shape, `appendKanjiBytes` fails for every
content whose Shift_JIS encoding has odd byte length, fails for every
2-byte pair whose code `(b1 << 8) | b2` lies outside
`[0x8140, 0x9FFC] ∪ [0xE040, 0xEBBF]`, and for every in-range pair emits
`(subtracted >> 8)·0xC0 + (subtracted & 0xFF)` in 13 bits with
`subtracted = code − 0x8140` resp. `code − 0xC140`; a Shift_JIS encoding
failure also fails. -/
theorem appendKanjiBytes_claim :
    (∀ (bytes : List Nat) (bits : List Bool), SJISBytes bytes → bytes.length % 2 = 1 →
      appendKanjiBytes (some bytes) bits = none) ∧
    (∀ (b1 b2 : Nat) (rest : List Nat) (bits : List Bool),
      ¬((0x8140 ≤ b1 * 256 + b2 ∧ b1 * 256 + b2 ≤ 0x9FFC) ∨
        (0xE040 ≤ b1 * 256 + b2 ∧ b1 * 256 + b2 ≤ 0xEBBF)) →
      appendKanjiBytes (some (b1 :: b2 :: rest)) bits = none) ∧
    (∀ (b1 b2 : Nat) (rest : List Nat) (bits : List Bool),
      0x8140 ≤ b1 * 256 + b2 → b1 * 256 + b2 ≤ 0x9FFC →
      appendKanjiBytes (some (b1 :: b2 :: rest)) bits =
        appendKanjiBytes (some rest)
          (appendBits bits
            ((b1 * 256 + b2 - 0x8140) / 256 * 0xC0 + (b1 * 256 + b2 - 0x8140) % 256) 13)) ∧
    (∀ (b1 b2 : Nat) (rest : List Nat) (bits : List Bool),
      0xE040 ≤ b1 * 256 + b2 → b1 * 256 + b2 ≤ 0xEBBF →
      appendKanjiBytes (some (b1 :: b2 :: rest)) bits =
        appendKanjiBytes (some rest)
          (appendBits bits
            ((b1 * 256 + b2 - 0xC140) / 256 * 0xC0 + (b1 * 256 + b2 - 0xC140) % 256) 13)) ∧
    (∀ bits, appendKanjiBytes none bits = none) := by
  refine ⟨?_, ?_, ?_, ?_, fun _ => rfl⟩
  · intro bytes bits hs hodd
    exact appendKanjiLoop_odd hs bits hodd
  · intro b1 b2 rest bits hout
    show appendKanjiLoop _ _ = none
    rw [appendKanjiLoop, if_neg (fun hA => hout (Or.inl hA)),
      if_neg (fun hB => hout (Or.inr hB))]
  · intro b1 b2 rest bits hlo hhi
    show appendKanjiLoop _ _ = appendKanjiLoop _ _
    rw [appendKanjiLoop, if_pos ⟨hlo, hhi⟩]
  · intro b1 b2 rest bits hlo hhi
    show appendKanjiLoop _ _ = appendKanjiLoop _ _
    rw [appendKanjiLoop, if_neg (by omega), if_pos ⟨hlo, hhi⟩]

/-- Witness for C3: the single half-width byte `0x41` (odd-length
Shift_JIS output) fails, and the in-range pair `(0x88, 0x9F)` emits its
13-bit value. -/
theorem appendKanjiBytes_claim_witness :
    appendKanjiBytes (some [0x41]) [] = none ∧
    appendKanjiBytes (some [0x88, 0x9F]) [] =
      appendKanjiBytes (some [])
        (appendBits []
          ((0x88 * 256 + 0x9F - 0x8140) / 256 * 0xC0 + (0x88 * 256 + 0x9F - 0x8140) % 256) 13) :=
  ⟨appendKanjiBytes_claim.1 [0x41] []
      (SJISBytes.single (Or.inl (by omega)) SJISBytes.nil) (by decide),
    appendKanjiBytes_claim.2.2.1 0x88 0x9F [] [] (by omega) (by omega)⟩

lemma sum_ite_range_int (n K : Nat) (h : K ≤ n) :
    (∑ i in Finset.range n, (if i < K then (0 : Int) else 1)) = ((n - K : Nat) : Int) := by
  rw [Finset.range_eq_Ico, ← Finset.sum_Ico_consecutive _ (Nat.zero_le K) h]
  rw [Finset.sum_eq_zero (fun i hi => if_pos (Finset.mem_Ico.mp hi).2), zero_add]
  rw [Finset.sum_congr rfl (fun i hi => if_neg (by have := (Finset.mem_Ico.mp hi).1; omega))]
  rw [Finset.sum_const, Nat.card_Ico]
  simp

lemma getNumDataBytes_blocks (T D R : Int) (hT : 0 ≤ T) (hD : 0 ≤ D) (hR : 0 < R) :
    (∀ i : Int, 0 ≤ i → i < R →
      getNumDataBytesAndNumECBytesForBlockID T D R i =
        some (D / R + (if i < R - T % R then 0 else 1), T / R - D / R)) ∧
    (∀ i : Int, R ≤ i → getNumDataBytesAndNumECBytesForBlockID T D R i = none) ∧
    (∑ i in Finset.range R.toNat,
        ((D / R + (if (i : Int) < R - T % R then 0 else 1)) +
          (T / R - D / R)) = T) := by
  have hTe := Int.ediv_add_emod T R
  have hm0 : 0 ≤ T % R := Int.emod_nonneg T (by omega)
  have hmR : T % R < R := Int.emod_lt_of_pos T hR
  refine ⟨?_, ?_, ?_⟩
  · intro i h0 hiR
    simp only [getNumDataBytesAndNumECBytesForBlockID]
    rw [if_neg (by omega)]
    rw [if_neg (by push_neg; ring)]
    rw [if_neg (by push_neg; ring)]
    rw [if_neg (by push_neg; linear_combination -hTe)]
    by_cases hg : i < R - T % R
    · rw [if_pos hg, if_pos hg]
      norm_num
    · rw [if_neg hg, if_neg hg]
      norm_num
  · intro i hRi
    simp only [getNumDataBytesAndNumECBytesForBlockID]
    rw [if_pos (by omega)]
  · have hKle : (R - T % R).toNat ≤ R.toNat := by omega
    have hKcast : (((R - T % R).toNat : Nat) : Int) = R - T % R :=
      Int.toNat_of_nonneg (by omega)
    rw [Finset.sum_add_distrib, Finset.sum_add_distrib]
    rw [Finset.sum_const, Finset.sum_const, Finset.card_range]
    have hfun : (fun x : Nat => (if (x : Int) < R - T % R then (0 : Int) else 1)) =
        (fun x : Nat => (if x < (R - T % R).toNat then (0 : Int) else 1)) :=
      funext (fun x => if_congr (by omega) rfl rfl)
    have hsum : (∑ x in Finset.range R.toNat,
        (if (x : Int) < R - T % R then (0 : Int) else 1)) =
        ((R.toNat - (R - T % R).toNat : Nat) : Int) := by
      rw [hfun]
      exact sum_ite_range_int R.toNat (R - T % R).toNat hKle
    rw [hsum]
    have hc1 : ((R.toNat : Nat) : Int) = R := Int.toNat_of_nonneg (by omega)
    have hc2 : ((R.toNat - (R - T % R).toNat : Nat) : Int) = T % R := by omega
    rw [hc2]
    rw [nsmul_eq_mul, nsmul_eq_mul, hc1]
    linear_combination hTe

/-- C7.  For non-negative byte counts and positive `numRSBlocks`, every
block `blockID < numRSBlocks` is assigned `⌊numDataBytes/numRSBlocks⌋`
data bytes when `blockID < numRSBlocks − (numTotalBytes mod numRSBlocks)`
and one more otherwise; the EC byte count
`⌊numTotalBytes/numRSBlocks⌋ − ⌊numDataBytes/numRSBlocks⌋` is the same
for every block; summed over all blocks, data plus EC bytes equal
`numTotalBytes`; and the call fails for `blockID ≥ numRSBlocks`. -/
theorem getNumDataBytes_claim (T D R : Int) (hT : 0 ≤ T) (hD : 0 ≤ D) (hR : 0 < R) :
    (∀ i : Int, 0 ≤ i → i < R →
      getNumDataBytesAndNumECBytesForBlockID T D R i =
        some (D / R + (if i < R - T % R then 0 else 1), T / R - D / R)) ∧
    (∀ i : Int, R ≤ i → getNumDataBytesAndNumECBytesForBlockID T D R i = none) ∧
    (∑ i in Finset.range R.toNat,
        ((D / R + (if (i : Int) < R - T % R then 0 else 1)) +
          (T / R - D / R)) = T) :=
  getNumDataBytes_blocks T D R hT hD hR

/-- Witness for C7 at `numTotalBytes = 26`, `numDataBytes = 19`,
`numRSBlocks = 1` (version 1-L). -/
theorem getNumDataBytes_claim_witness :
    (∀ i : Int, 0 ≤ i → i < 1 →
      getNumDataBytesAndNumECBytesForBlockID 26 19 1 i =
        some ((19 : Int) / 1 + (if i < 1 - (26 : Int) % 1 then 0 else 1),
          (26 : Int) / 1 - (19 : Int) / 1)) ∧
    (∀ i : Int, 1 ≤ i → getNumDataBytesAndNumECBytesForBlockID 26 19 1 i = none) ∧
    (∑ i in Finset.range (1 : Int).toNat,
        (((19 : Int) / 1 + (if (i : Int) < 1 - (26 : Int) % 1 then 0 else 1)) +
          ((26 : Int) / 1 - (19 : Int) / 1)) = 26) :=
  getNumDataBytes_claim 26 19 1 (by omega) (by omega) (by omega)

/-- The byte-to-bit readout used to compare interleaved byte streams with
the bit stream the placement loops build: each byte in 8 bits, MSB first. -/
def bytesToBits (bytes : List Nat) : List Bool :=
  bytes.flatMap (fun b => natBits b 8)

lemma bytesToBits_length (bytes : List Nat) : (bytesToBits bytes).length = 8 * bytes.length := by
  induction bytes with
  | nil => rfl
  | cons b rest ih =>
      show (natBits b 8 ++ bytesToBits rest).length = _
      rw [List.length_append, natBits_length, ih]
      simp
      ring

lemma bytesToBits_append (a b : List Nat) :
    bytesToBits (a ++ b) = bytesToBits a ++ bytesToBits b := by
  simp [bytesToBits]

lemma rsRemAux_length :
    ∀ (steps : Nat) (rem g : List Nat), (rsRemAux steps rem g).length = rem.length - steps
  | 0, rem, g => by simp [rsRemAux]
  | steps + 1, [], g => by simp [rsRemAux]
  | steps + 1, c :: rest, g => by
      rw [rsRemAux, rsRemAux_length steps _ g]
      rw [zipXor, List.length_zipWith, List.length_append, List.length_replicate,
        List.length_map]
      simp only [List.length_cons]
      omega

lemma rsRemainder_length (data : List Nat) (d : Nat) : (rsRemainder data d).length = d := by
  rw [rsRemainder, rsRemAux_length, List.length_append, List.length_replicate]
  omega

lemma blockDataBytes_length (bits : List Bool) (offset size : Nat) :
    (blockDataBytes bits offset size).length = size := by
  simp [blockDataBytes]

lemma get?_eq_some_getD {α : Type} (l : List α) (i : Nat) (d : α) (h : i < l.length) :
    l.get? i = some (l.getD i d) := by
  rw [List.get?_eq_getElem?, List.getElem?_eq_getElem h, List.getD_eq_getElem?_getD,
    List.getElem?_eq_getElem h]
  rfl

lemma innerFold_eq (bss : List (List Nat)) (i : Nat) :
    ∀ acc : List Bool,
      bss.foldl
        (fun acc2 bytes => if i < bytes.length then appendBits acc2 (bytes.getD i 0) 8 else acc2)
        acc =
      acc ++ bytesToBits (bss.filterMap (fun l => l.get? i)) := by
  induction bss with
  | nil => intro acc; simp [bytesToBits]
  | cons l rest ih =>
      intro acc
      rw [List.foldl_cons, List.filterMap_cons]
      by_cases h : i < l.length
      · rw [if_pos h, get?_eq_some_getD l i 0 h]
        rw [ih (appendBits acc (l.getD i 0) 8)]
        show (acc ++ natBits (l.getD i 0) 8) ++ _ = _
        rw [List.append_assoc]
        rfl
      · rw [if_neg h, (List.get?_eq_none).mpr (by omega)]
        exact ih acc

lemma placeLoop_eq (bss : List (List Nat)) :
    ∀ (m : Nat) (acc : List Bool),
      placeLoop bss m acc =
        acc ++ bytesToBits
          ((List.range m).flatMap (fun i => bss.filterMap (fun l => l.get? i))) := by
  intro m
  induction m with
  | zero => intro acc; simp [placeLoop, bytesToBits]
  | succ m ih =>
      intro acc
      rw [placeLoop, List.range_succ, List.foldl_append]
      show (bss.foldl _ (placeLoop bss m acc)) = _
      rw [innerFold_eq bss m (placeLoop bss m acc), ih acc, List.flatMap_append,
        List.flatMap_singleton, bytesToBits_append, List.append_assoc]

lemma filterMap_get_length (i : Nat) :
    ∀ bss : List (List Nat),
      (bss.filterMap (fun l => l.get? i)).length +
        (bss.map (fun l => min i l.length)).sum =
      (bss.map (fun l => min (i + 1) l.length)).sum := by
  intro bss
  induction bss with
  | nil => simp
  | cons l rest ih =>
      rw [List.filterMap_cons]
      by_cases h : i < l.length
      · rw [get?_eq_some_getD l i 0 h]
        simp only [List.map_cons, List.sum_cons, List.length_cons]
        omega
      · rw [(List.get?_eq_none).mpr (by omega)]
        simp only [List.map_cons, List.sum_cons]
        omega

lemma interleave_length (bss : List (List Nat)) :
    ∀ m : Nat,
      ((List.range m).flatMap (fun i => bss.filterMap (fun l => l.get? i))).length =
        (bss.map (fun l => min m l.length)).sum := by
  intro m
  induction m with
  | zero => simp
  | succ m ih =>
      rw [List.range_succ, List.flatMap_append, List.length_append, ih,
        List.flatMap_singleton]
      have := filterMap_get_length m bss
      omega

lemma foldl_max_le (M : Nat) :
    ∀ (l : List Nat) (a : Nat), a ≤ M → (∀ x ∈ l, x ≤ M) → l.foldl max a ≤ M := by
  intro l
  induction l with
  | nil => intro a ha _; simpa using ha
  | cons x rest ih =>
      intro a ha hall
      rw [List.foldl_cons]
      exact ih (max a x) (by have := hall x (by simp); omega)
        (fun y hy => hall y (by simp [hy]))

lemma le_foldl_max :
    ∀ (l : List Nat) (a : Nat), a ≤ l.foldl max a ∧ ∀ x ∈ l, x ≤ l.foldl max a := by
  intro l
  induction l with
  | nil => intro a; simp
  | cons x rest ih =>
      intro a
      rw [List.foldl_cons]
      obtain ⟨h1, h2⟩ := ih (max a x)
      refine ⟨by omega, ?_⟩
      intro y hy
      rcases List.mem_cons.mp hy with hy | hy
      · subst hy; omega
      · exact h2 y hy

lemma sum_map_range_affine (a K : Nat) :
    ∀ n : Nat,
      ((List.range n).map (fun j => a + if j < K then 0 else 1)).sum =
        n * a + (n - min n K) := by
  intro n
  induction n with
  | zero => simp
  | succ n ih =>
      rw [List.range_succ, List.map_append, List.sum_append, ih]
      simp only [List.map_cons, List.map_nil, List.sum_cons, List.sum_nil]
      have hsm : (n + 1) * a = n * a + a := by ring
      by_cases h : n < K
      · rw [if_pos h, hsm]
        omega
      · rw [if_neg h, hsm]
        omega

lemma sum_map_const_list {α : Type} (l : List α) (c : Nat) :
    (l.map (fun _ => c)).sum = l.length * c := by
  induction l with
  | nil => simp
  | cons x rest ih => simp [ih]; ring

lemma getNum_nat (T D R i : Nat) (hR : 0 < R) (hi : i < R) (hle : D / R ≤ T / R) :
    getNumDataBytesAndNumECBytesForBlockID (T : Int) (D : Int) (R : Int) (i : Int) =
      some (d, e) →
      d.toNat = D / R + (if i < R - T % R then 0 else 1) ∧ e.toNat = T / R - D / R := by
  intro hsome
  have hmc : ((T % R : Nat) : Int) = (T : Int) % (R : Int) := Int.ofNat_emod T R
  have hmR : T % R < R := Nat.mod_lt _ hR
  have hg : ((R - T % R : Nat) : Int) = (R : Int) - (T : Int) % (R : Int) := by
    rw [Nat.cast_sub (le_of_lt hmR), hmc]
  have hDN : ((D : Int) / (R : Int)).toNat = D / R := by
    rw [← Int.ofNat_ediv]
    exact Int.toNat_ofNat _
  have hTN : ((T : Int) / (R : Int)).toNat = T / R := by
    rw [← Int.ofNat_ediv]
    exact Int.toNat_ofNat _
  have hDnn : 0 ≤ (D : Int) / (R : Int) := by positivity
  have hTnn : 0 ≤ (T : Int) / (R : Int) := by positivity
  have hget := (getNumDataBytes_blocks (T : Int) (D : Int) (R : Int)
    (by positivity) (by positivity) (by exact_mod_cast hR)).1 (i : Int)
    (by positivity) (by exact_mod_cast hi)
  rw [hget] at hsome
  obtain ⟨hd, he⟩ := Prod.mk.injEq .. ▸ (Option.some.injEq .. ▸ hsome)
  constructor
  · rw [← hd]
    by_cases hc : i < R - T % R
    · rw [if_pos (show ((i : Int) < (R : Int) - (T : Int) % (R : Int)) by
        rw [← hg]; exact_mod_cast hc), if_pos hc]
      omega
    · rw [if_neg (show ¬((i : Int) < (R : Int) - (T : Int) % (R : Int)) by
        rw [← hg]; exact_mod_cast hc), if_neg hc]
      omega
  · rw [← he]
    omega

lemma buildBlocksAux_spec (bits : List Bool) (T D R : Nat) (hR : 0 < R) (hRD : R ≤ D)
    (hDT : D < T) (hcong : T % R = D % R) :
    ∀ (k i : Nat), i + k = R →
      buildBlocksAux bits T D R i k (i * (D / R) + (i - (R - T % R))) =
        some ((List.range' i k).map (fun j =>
          (blockDataBytes bits (j * (D / R) + (j - (R - T % R)))
              (D / R + (if j < R - T % R then 0 else 1)),
            rsRemainder
              (blockDataBytes bits (j * (D / R) + (j - (R - T % R)))
                (D / R + (if j < R - T % R then 0 else 1)))
              (T / R - D / R))),
          D) := by
  have hmR : T % R < R := Nat.mod_lt _ hR
  have hle : D / R ≤ T / R := Nat.div_le_div_right (le_of_lt hDT)
  have hdm_T := Nat.div_add_mod T R
  have hdm_D := Nat.div_add_mod D R
  have hEpos : 1 ≤ T / R - D / R := by
    rcases Nat.lt_or_ge (D / R) (T / R) with h | h
    · omega
    · exfalso
      have heq : T / R = D / R := le_antisymm h hle
      rw [heq] at hdm_T
      omega
  have hDRpos : 1 ≤ D / R := (Nat.one_le_div_iff hR).mpr hRD
  intro k
  induction k with
  | zero =>
      intro i hik
      have hi : i = R := by omega
      rw [hi]
      have hoff : R * (D / R) + (R - (R - T % R)) = D := by omega
      show some ([], R * (D / R) + (R - (R - T % R))) = _
      rw [hoff]
      simp [List.range']
  | succ k ih =>
      intro i hik
      have hiR : i < R := by omega
      have hget := (getNumDataBytes_blocks (T : Int) (D : Int) (R : Int)
        (by positivity) (by positivity) (by exact_mod_cast hR)).1 (i : Int)
        (by positivity) (by exact_mod_cast hiR)
      obtain ⟨hd, he⟩ := getNum_nat T D R i hR hiR hle hget
      rw [buildBlocksAux, hget]
      simp only [Option.bind_eq_bind, Option.some_bind]
      rw [hd, he]
      rw [generateECBytes,
        if_neg (by rw [blockDataBytes_length]; push_neg; omega)]
      simp only [Option.some_bind]
      have hoffstep : i * (D / R) + (i - (R - T % R)) +
          (D / R + (if i < R - T % R then 0 else 1)) =
          (i + 1) * (D / R) + ((i + 1) - (R - T % R)) := by
        have hsm : (i + 1) * (D / R) = i * (D / R) + D / R := by ring
        by_cases hc : i < R - T % R
        · rw [if_pos hc]
          omega
        · rw [if_neg hc]
          omega
      rw [hoffstep, ih (i + 1) (by omega)]
      simp only [Option.bind_eq_bind, Option.some_bind]
      rw [List.range'_succ]
      rfl

/-- C6.  When `bits` holds exactly `numDataBytes` bytes (and the byte
counts are consistent the way the version tables guarantee: positive block
count, at least one data byte and one EC byte per block, and
`numTotalBytes ≡ numDataBytes` modulo the block count), the output of
`interleaveWithECBytes` is exactly: for each byte index `i`, the data byte
`i` of every block that has one, in block order, followed by, for each
index `i`, the EC byte `i` of every block that has one, in block order;
the output holds exactly `numTotalBytes` bytes; and the call fails when
`bits.getSizeInBytes()` differs from `numDataBytes`. -/
theorem interleaveWithECBytes_claim (bits : List Bool) (T D R : Nat) :
    (getSizeInBytes bits ≠ D → interleaveWithECBytes bits T D R = none) ∧
    (0 < R → R ≤ D → D < T → T % R = D % R → bits.length = 8 * D →
      interleaveWithECBytes bits T D R =
        some (bytesToBits (
          (List.range (D / R + (if T % R = 0 then 0 else 1))).flatMap (fun i =>
            ((List.range R).map (fun j =>
              blockDataBytes bits (j * (D / R) + (j - (R - T % R)))
                (D / R + (if j < R - T % R then 0 else 1)))).filterMap
              (fun l => l.get? i)) ++
          (List.range (T / R - D / R)).flatMap (fun i =>
            ((List.range R).map (fun j =>
              rsRemainder
                (blockDataBytes bits (j * (D / R) + (j - (R - T % R)))
                  (D / R + (if j < R - T % R then 0 else 1)))
                (T / R - D / R))).filterMap
              (fun l => l.get? i)))) ∧
      (∀ out, interleaveWithECBytes bits T D R = some out →
        out.length = 8 * T ∧ getSizeInBytes out = T)) := by
  constructor
  · intro h
    rw [interleaveWithECBytes, if_pos h]
  · intro hR hRD hDT hcong hlen
    have hsz : getSizeInBytes bits = D := by
      rw [getSizeInBytes, hlen]
      omega
    have hmR : T % R < R := Nat.mod_lt _ hR
    have hle : D / R ≤ T / R := Nat.div_le_div_right (le_of_lt hDT)
    have hdm_T := Nat.div_add_mod T R
    have hdm_D := Nat.div_add_mod D R
    have hbb := buildBlocksAux_spec bits T D R hR hRD hDT hcong R 0 (by omega)
    rw [show (0 * (D / R) + (0 - (R - T % R))) = 0 by omega] at hbb
    rw [← List.range_eq_range'] at hbb
    have hsizes_le : ∀ j, j < R →
        D / R + (if j < R - T % R then 0 else 1) ≤
          D / R + (if T % R = 0 then 0 else 1) := by
      intro j hj
      by_cases hTm : T % R = 0
      · rw [if_pos (show j < R - T % R by omega), if_pos hTm]
      · rw [if_neg hTm]
        by_cases hc : j < R - T % R
        · rw [if_pos hc]
          omega
        · rw [if_neg hc]
    have hmaxD :
        (((List.range R).map (fun j =>
          (blockDataBytes bits (j * (D / R) + (j - (R - T % R)))
              (D / R + (if j < R - T % R then 0 else 1)),
            rsRemainder
              (blockDataBytes bits (j * (D / R) + (j - (R - T % R)))
                (D / R + (if j < R - T % R then 0 else 1)))
              (T / R - D / R)))).foldl (fun m b => max m b.1.length) 0) =
          D / R + (if T % R = 0 then 0 else 1) := by
      rw [List.foldl_map]
      have hfold :
          ((List.range R).foldl (fun m j => max m
            (blockDataBytes bits (j * (D / R) + (j - (R - T % R)))
              (D / R + (if j < R - T % R then 0 else 1))).length) 0) =
          ((List.range R).map (fun j =>
            D / R + (if j < R - T % R then 0 else 1))).foldl max 0 := by
        rw [List.foldl_map]
        congr 1
        funext m j
        rw [blockDataBytes_length]
      rw [hfold]
      apply le_antisymm
      · refine foldl_max_le _ _ _ ?_ ?_
        · exact Nat.zero_le _
        · intro x hx
          obtain ⟨j, hj, rfl⟩ := List.mem_map.mp hx
          exact hsizes_le j (List.mem_range.mp hj)
      · by_cases hTm : T % R = 0
        · have h0mem : D / R + (if T % R = 0 then 0 else 1) ∈
              (List.range R).map (fun j => D / R + (if j < R - T % R then 0 else 1)) := by
            refine List.mem_map.mpr ⟨0, List.mem_range.mpr hR, ?_⟩
            rw [if_pos (show (0 : Nat) < R - T % R by omega), if_pos hTm]
          exact (le_foldl_max _ 0).2 _ h0mem
        · have h0mem : D / R + (if T % R = 0 then 0 else 1) ∈
              (List.range R).map (fun j => D / R + (if j < R - T % R then 0 else 1)) := by
            refine List.mem_map.mpr ⟨R - 1, List.mem_range.mpr (by omega), ?_⟩
            rw [if_neg (show ¬(R - 1 < R - T % R) by omega), if_neg hTm]
          exact (le_foldl_max _ 0).2 _ h0mem
    have hmaxE :
        (((List.range R).map (fun j =>
          (blockDataBytes bits (j * (D / R) + (j - (R - T % R)))
              (D / R + (if j < R - T % R then 0 else 1)),
            rsRemainder
              (blockDataBytes bits (j * (D / R) + (j - (R - T % R)))
                (D / R + (if j < R - T % R then 0 else 1)))
              (T / R - D / R)))).foldl (fun m b => max m b.2.length) 0) =
          T / R - D / R := by
      rw [List.foldl_map]
      have hfold :
          ((List.range R).foldl (fun m j => max m
            (rsRemainder
              (blockDataBytes bits (j * (D / R) + (j - (R - T % R)))
                (D / R + (if j < R - T % R then 0 else 1)))
              (T / R - D / R)).length) 0) =
          ((List.range R).map (fun _ => T / R - D / R)).foldl max 0 := by
        rw [List.foldl_map]
        congr 1
        funext m j
        rw [rsRemainder_length]
      rw [hfold]
      apply le_antisymm
      · refine foldl_max_le _ _ _ ?_ ?_
        · exact Nat.zero_le _
        · intro x hx
          obtain ⟨j, _, rfl⟩ := List.mem_map.mp hx
          exact le_refl _
      · exact (le_foldl_max _ 0).2 _
          (List.mem_map.mpr ⟨0, List.mem_range.mpr hR, rfl⟩)
    have hmapA : (((List.range R).map (fun j =>
        blockDataBytes bits (j * (D / R) + (j - (R - T % R)))
          (D / R + (if j < R - T % R then 0 else 1)))).map
        (fun l => min (D / R + (if T % R = 0 then 0 else 1)) l.length)) =
        (List.range R).map (fun j => D / R + (if j < R - T % R then 0 else 1)) := by
      rw [List.map_map]
      apply List.map_congr_left
      intro j hj
      show min (D / R + (if T % R = 0 then 0 else 1))
        (blockDataBytes bits (j * (D / R) + (j - (R - T % R)))
          (D / R + (if j < R - T % R then 0 else 1))).length = _
      rw [blockDataBytes_length]
      exact Nat.min_eq_right (hsizes_le j (List.mem_range.mp hj))
    have hA_len : ((List.range (D / R + (if T % R = 0 then 0 else 1))).flatMap (fun i =>
        ((List.range R).map (fun j =>
          blockDataBytes bits (j * (D / R) + (j - (R - T % R)))
            (D / R + (if j < R - T % R then 0 else 1)))).filterMap
          (fun l => l.get? i))).length = D := by
      rw [interleave_length, hmapA, sum_map_range_affine]
      have hmin : min R (R - T % R) = R - T % R := by omega
      omega
    have hmapB : (((List.range R).map (fun j =>
        rsRemainder
          (blockDataBytes bits (j * (D / R) + (j - (R - T % R)))
            (D / R + (if j < R - T % R then 0 else 1)))
          (T / R - D / R))).map
        (fun l => min (T / R - D / R) l.length)) =
        (List.range R).map (fun _ => T / R - D / R) := by
      rw [List.map_map]
      apply List.map_congr_left
      intro j _
      show min (T / R - D / R)
        (rsRemainder
          (blockDataBytes bits (j * (D / R) + (j - (R - T % R)))
            (D / R + (if j < R - T % R then 0 else 1)))
          (T / R - D / R)).length = _
      rw [rsRemainder_length]
      exact Nat.min_eq_right (le_refl _)
    have hRE : R * (T / R - D / R) = T - D := by
      rw [Nat.mul_sub]
      omega
    have hB_len : ((List.range (T / R - D / R)).flatMap (fun i =>
        ((List.range R).map (fun j =>
          rsRemainder
            (blockDataBytes bits (j * (D / R) + (j - (R - T % R)))
              (D / R + (if j < R - T % R then 0 else 1)))
            (T / R - D / R))).filterMap
          (fun l => l.get? i))).length = T - D := by
      rw [interleave_length, hmapB, sum_map_const_list, List.length_range, hRE]
    have hfst : (((List.range R).map (fun j =>
        (blockDataBytes bits (j * (D / R) + (j - (R - T % R)))
            (D / R + (if j < R - T % R then 0 else 1)),
          rsRemainder
            (blockDataBytes bits (j * (D / R) + (j - (R - T % R)))
              (D / R + (if j < R - T % R then 0 else 1)))
            (T / R - D / R)))).map (fun b => b.1)) =
        (List.range R).map (fun j =>
          blockDataBytes bits (j * (D / R) + (j - (R - T % R)))
            (D / R + (if j < R - T % R then 0 else 1))) := by
      simp [List.map_map]
    have hsnd : (((List.range R).map (fun j =>
        (blockDataBytes bits (j * (D / R) + (j - (R - T % R)))
            (D / R + (if j < R - T % R then 0 else 1)),
          rsRemainder
            (blockDataBytes bits (j * (D / R) + (j - (R - T % R)))
              (D / R + (if j < R - T % R then 0 else 1)))
            (T / R - D / R)))).map (fun b => b.2)) =
        (List.range R).map (fun j =>
          rsRemainder
            (blockDataBytes bits (j * (D / R) + (j - (R - T % R)))
              (D / R + (if j < R - T % R then 0 else 1)))
            (T / R - D / R)) := by
      simp [List.map_map]
    have hmain : interleaveWithECBytes bits T D R =
        some (bytesToBits (
          (List.range (D / R + (if T % R = 0 then 0 else 1))).flatMap (fun i =>
            ((List.range R).map (fun j =>
              blockDataBytes bits (j * (D / R) + (j - (R - T % R)))
                (D / R + (if j < R - T % R then 0 else 1)))).filterMap
              (fun l => l.get? i)) ++
          (List.range (T / R - D / R)).flatMap (fun i =>
            ((List.range R).map (fun j =>
              rsRemainder
                (blockDataBytes bits (j * (D / R) + (j - (R - T % R)))
                  (D / R + (if j < R - T % R then 0 else 1)))
                (T / R - D / R))).filterMap
              (fun l => l.get? i)))) := by
      rw [interleaveWithECBytes, if_neg (by omega)]
      rw [hbb]
      simp only [Option.bind_eq_bind, Option.some_bind]
      rw [if_neg (by omega)]
      rw [hmaxD, hmaxE, hfst, hsnd]
      rw [placeLoop_eq, placeLoop_eq, List.nil_append]
      rw [← bytesToBits_append]
      rw [if_neg (by
        rw [getSizeInBytes, bytesToBits_length, List.length_append, hA_len, hB_len]
        omega)]
    refine ⟨hmain, ?_⟩
    intro out hout
    rw [hmain] at hout
    have hout2 := Option.some.inj hout.symm
    rw [hout2]
    constructor
    · rw [bytesToBits_length, List.length_append, hA_len, hB_len]
      omega
    · rw [getSizeInBytes, bytesToBits_length, List.length_append, hA_len, hB_len]
      omega

/-- Witness for C6 at `numTotalBytes = 3`, `numDataBytes = 1`,
`numRSBlocks = 1` with one zero data byte. -/
theorem interleaveWithECBytes_claim_witness :
    interleaveWithECBytes (List.replicate 8 false) 3 1 1 =
      some (bytesToBits (
        (List.range (1 / 1 + (if 3 % 1 = 0 then 0 else 1))).flatMap (fun i =>
          ((List.range 1).map (fun j =>
            blockDataBytes (List.replicate 8 false) (j * (1 / 1) + (j - (1 - 3 % 1)))
              (1 / 1 + (if j < 1 - 3 % 1 then 0 else 1)))).filterMap
            (fun l => l.get? i)) ++
        (List.range (3 / 1 - 1 / 1)).flatMap (fun i =>
          ((List.range 1).map (fun j =>
            rsRemainder
              (blockDataBytes (List.replicate 8 false) (j * (1 / 1) + (j - (1 - 3 % 1)))
                (1 / 1 + (if j < 1 - 3 % 1 then 0 else 1)))
              (3 / 1 - 1 / 1))).filterMap
            (fun l => l.get? i)))) ∧
    (∀ out, interleaveWithECBytes (List.replicate 8 false) 3 1 1 = some out →
      out.length = 8 * 3 ∧ getSizeInBytes out = 3) :=
  (interleaveWithECBytes_claim (List.replicate 8 false) 3 1 1).2 (by omega) (by omega)
    (by omega) (by omega) (by simp)
